import Mathlib

/-!
Verification of the Smart Inventory Management System
(`Smart inventory management/Inventory/wearhouse.py`).

The Python module keeps four pieces of in-memory state: the product
catalog `INVENTORY` (a list of `[id, name, category, price, stock]`
rows), the transaction `ledger`, the FIFO `order_queue` (a deque used
only through `append`), and the `backorder_queue` (a list used through
`heapq.heappush`).  This file gives a shallow embedding of that state
and of the operations `add_transaction`, `_get_product_by_id`,
`calculate_composite_cost`, `add_new_product` and `place_order`, plus a
faithful translation of CPython's `heapq.heappush` / `heapq.heappop`
(the sift loops are transcribed from the stdlib since the module's
backorder behaviour depends on them).

Modelling conventions:
* Python `int` is `Int`; Python `float` prices are `ℚ` (every literal
  in the module is exactly representable, and only `+`, `*` and
  comparisons occur, on which `ℚ` agrees with binary floating point for
  the values involved in the claims);
* `datetime.datetime.now()` / `.timestamp()` is an explicit `now : Int`
  parameter (seconds, as produced by `int(...timestamp())`);
* `input()` values that are parsed with `int(...)` / `float(...)` are
  `Option Int` / `Option ℚ` parameters, `none` meaning the parse raised
  `ValueError`; a raised-and-caught `ValueError` (including the one
  `max` raises on an empty catalog) makes the operation return the
  state unchanged, exactly as the `except ValueError` handlers do;
* the unbounded recursion of `calculate_composite_cost` is embedded
  with an explicit `fuel` argument (the Python function diverges on a
  cyclic composite table; every theorem below quantifies over all
  sufficiently large fuel, so the fuel-exhausted branch never matters).
-/

/-- A catalog row `[id, name, category, price, stock]` of `INVENTORY`. -/
structure Product where
  id : Int
  name : String
  category : String
  price : ℚ
  stock : Int
deriving DecidableEq, Repr

/-- A ledger record as built by `TransactionLedger.add_transaction`. -/
structure TransactionRecord where
  timestamp : Int
  product_id : Int
  description : String
  quantity_change : Int
deriving DecidableEq, Repr

/-- An order tuple `(order_id, product_id, quantity)` as built in
`place_order`. -/
abbrev Order := Int × Int × Int

/-- Python's `<` on `(int, int, int)` tuples: lexicographic comparison,
first component first, ties broken by the second then the third.  This
is the comparison `heapq` uses on the backorder queue. -/
def tupleLt (a b : Order) : Prop :=
  a.1 < b.1 ∨ (a.1 = b.1 ∧ (a.2.1 < b.2.1 ∨ (a.2.1 = b.2.1 ∧ a.2.2 < b.2.2)))

instance (a b : Order) : Decidable (tupleLt a b) := by
  unfold tupleLt; infer_instance

/-- Non-strict counterpart of `tupleLt` (used to state minimality). -/
def tupleLe (a b : Order) : Prop := tupleLt a b ∨ a = b

instance (a b : Order) : Decidable (tupleLe a b) := by
  unfold tupleLe; infer_instance

/-- `heap[i]` on the array encoding of the binary heap.  All reads in
the sift loops are in range in the Python code, so the default value is
never observed there. -/
def heapGet (heap : List Order) (i : Nat) : Order :=
  heap.getD i ((0 : Int), (0 : Int), (0 : Int))

/-- CPython `heapq._siftdown(heap, 0, pos)` (bubble-up), carrying
`newitem` exactly as the stdlib does: parents greater than `newitem`
are moved down while walking to the root, and `newitem` is written to
the final position. -/
def siftdownLoop (newitem : Order) : List Order → Nat → List Order
  | heap, 0 => heap.set 0 newitem
  | heap, pos + 1 =>
    let parent := heapGet heap (pos / 2)
    if tupleLt newitem parent then
      siftdownLoop newitem (heap.set (pos + 1) parent) (pos / 2)
    else
      heap.set (pos + 1) newitem
termination_by _ pos => pos
decreasing_by omega

/-- CPython `heapq.heappush heap item`: append `item`, then sift it up
from the last index. -/
def heappush (heap : List Order) (item : Order) : List Order :=
  siftdownLoop item (heap ++ [item]) heap.length

/-- CPython `heapq._siftup(heap, pos)` for a call started at the root
(`startpos = 0`, the only way `heappop` uses it): walk down to a leaf
always moving the smaller child up, then bubble the carried `newitem`
back up with `_siftdown`. -/
def siftupLoop (newitem : Order) (heap : List Order) (pos : Nat) : List Order :=
  if hc : 2 * pos + 1 < heap.length then
    let childpos :=
      if 2 * pos + 2 < heap.length ∧
          ¬ tupleLt (heapGet heap (2 * pos + 1)) (heapGet heap (2 * pos + 2)) then
        2 * pos + 2
      else
        2 * pos + 1
    siftupLoop newitem (heap.set pos (heapGet heap childpos)) childpos
  else
    siftdownLoop newitem (heap.set pos newitem) pos
termination_by heap.length - pos
decreasing_by
  simp only [List.length_set]
  split
  · rename_i hsplit
    obtain ⟨h2, -⟩ := hsplit
    omega
  · omega

/-- CPython `heapq.heappop heap`: `none` models the `IndexError` on an
empty list; otherwise returns the popped minimum together with the
remaining heap. -/
def heappop : List Order → Option (Order × List Order)
  | [] => none
  | [a] => some (a, [])
  | a :: b :: bs =>
    let lastelt := (b :: bs).getLast (List.cons_ne_nil b bs)
    let rest := (a :: b :: bs).dropLast
    some (a, siftupLoop lastelt (rest.set 0 lastelt) 0)

/-- The seeded global `INVENTORY` list. -/
def INVENTORY : List Product :=
  [⟨101, "Gaming Mouse", "Electronics", 75.50, 80⟩,
   ⟨102, "Mechanical Keyboard", "Electronics", 120.00, 50⟩,
   ⟨103, "Webcam", "Electronics", 90.00, 60⟩,
   ⟨201, "Office Chair", "Furniture", 150.00, 30⟩,
   ⟨202, "Desk Lamp", "Furniture", 45.75, 100⟩,
   ⟨901, "Gamer PC Bundle", "Composite", 0, 10⟩]

/-- The global `COMPOSITE_PRODUCTS` dict, as an association list. -/
def COMPOSITE_PRODUCTS : List (Int × List Int) :=
  [(901, [101, 102, 103])]

/-- `_get_product_by_id`: first catalog row with the given id, `None`
when absent. -/
def getProductById (inventory : List Product) (product_id : Int) : Option Product :=
  inventory.find? (fun p => p.id == product_id)

/-- `TransactionLedger.add_transaction`: append one record (with the
current timestamp) at the end of the transaction list. -/
def add_transaction (transactions : List TransactionRecord) (now : Int)
    (product_id : Int) (description : String) (quantity_change : Int) :
    List TransactionRecord :=
  transactions ++ [⟨now, product_id, description, quantity_change⟩]

/-- `calculate_composite_cost`, with the composite table and the catalog
as parameters (the Python function reads the globals
`COMPOSITE_PRODUCTS` and `INVENTORY`) and explicit recursion fuel.  If
the id is not a composite key, the catalog price is returned (0 when
the product is not found); otherwise the costs of the parts are summed
recursively. -/
def calculate_composite_cost (comps : List (Int × List Int))
    (inventory : List Product) : Nat → Int → ℚ
  | 0, _ => 0
  | fuel + 1, product_id =>
    match comps.lookup product_id with
    | none =>
      match getProductById inventory product_id with
      | some product => product.price
      | none => 0
    | some parts =>
      (parts.map (calculate_composite_cost comps inventory fuel)).sum

/-- The whole mutable module state: `INVENTORY`, `ledger`,
`order_queue`, `backorder_queue`. -/
structure SystemState where
  inventory : List Product
  ledger : List TransactionRecord
  order_queue : List Order
  backorder_queue : List Order
deriving DecidableEq, Repr

/-- `max(p[0] for p in INVENTORY)`: `none` models the `ValueError`
Python's `max` raises on an empty catalog. -/
def maxId : List Product → Option Int
  | [] => none
  | p :: ps => some (ps.foldl (fun m q => max m q.id) p.id)

/-- `add_new_product`: parse price and stock (a failed parse raises
`ValueError`, caught by the handler, leaving the state untouched),
compute `new_id = max(ids) + 1` (the `ValueError` of `max` on an empty
catalog lands in the same handler), append the product and a ledger
entry.  Returns the new state and the assigned id (`none` on
failure). -/
def add_new_product (s : SystemState) (now : Int) (name category : String)
    (priceIn : Option ℚ) (stockIn : Option Int) : SystemState × Option Int :=
  match priceIn with
  | none => (s, none)
  | some price =>
    match stockIn with
    | none => (s, none)
    | some stock =>
      match maxId s.inventory with
      | none => (s, none)
      | some m =>
        let new_id := m + 1
        let new_product : Product := ⟨new_id, name, category, price, stock⟩
        ({ s with
            inventory := s.inventory ++ [new_product],
            ledger := add_transaction s.ledger now new_id "initial stock" stock },
         some new_id)

/-- Result tag of `place_order` (which branch of the Python function
ran). -/
inductive PlaceResult where
  | queued
  | backordered
  | notFound
  | invalidInput
deriving DecidableEq, Repr

/-- `place_order`: parse the product id (`ValueError` → no change), look
it up (not found → early return, no change), parse the quantity
(`ValueError` → no change), build `order = (order_id, product_id,
quantity)` with `order_id = int(datetime.now().timestamp()) = now`, and
route it: sufficient stock appends to the FIFO `order_queue`, otherwise
`heapq.heappush` onto `backorder_queue`. -/
def place_order (s : SystemState) (now : Int)
    (productIdIn quantityIn : Option Int) : SystemState × PlaceResult :=
  match productIdIn with
  | none => (s, .invalidInput)
  | some product_id =>
    match getProductById s.inventory product_id with
    | none => (s, .notFound)
    | some product =>
      match quantityIn with
      | none => (s, .invalidInput)
      | some quantity =>
        let order_id := now
        let order : Order := (order_id, product_id, quantity)
        if product.stock ≥ quantity then
          ({ s with order_queue := s.order_queue ++ [order] }, .queued)
        else
          ({ s with backorder_queue := heappush s.backorder_queue order }, .backordered)

/-- The module state right after import: seeded catalog, one
"initial stock" ledger entry per seeded row, empty queues. -/
def initialState (now : Int) : SystemState :=
  { inventory := INVENTORY,
    ledger := INVENTORY.foldl
      (fun l p => add_transaction l now p.id "initial stock" p.stock) [],
    order_queue := [],
    backorder_queue := [] }

/-- Pushing a list of orders one by one onto an initially empty
backorder queue. -/
def pushAll (orders : List Order) : List Order :=
  orders.foldl heappush []

/-- A sequence of `add_new_product` calls (all with numeric inputs
supplied), returning the final state and the list of assigned ids. -/
def runAdds (now : Int) : SystemState → List (String × String × ℚ × Int) →
    SystemState × List Int
  | s, [] => (s, [])
  | s, (name, category, price, stock) :: rest =>
    match add_new_product s now name category (some price) (some stock) with
    | (s', none) => runAdds now s' rest
    | (s', some id) =>
      let rec_result := runAdds now s' rest
      (rec_result.1, id :: rec_result.2)

/-- The seeded catalog with the `901` bundle row's price and stock
replaced by arbitrary values (for checking that the composite cost of
`901` never reads its own catalog row). -/
def inventoryWithBundleRow (price' : ℚ) (stock' : Int) : List Product :=
  [⟨101, "Gaming Mouse", "Electronics", 75.50, 80⟩,
   ⟨102, "Mechanical Keyboard", "Electronics", 120.00, 50⟩,
   ⟨103, "Webcam", "Electronics", 90.00, 60⟩,
   ⟨201, "Office Chair", "Furniture", 150.00, 30⟩,
   ⟨202, "Desk Lamp", "Furniture", 45.75, 100⟩,
   ⟨901, "Gamer PC Bundle", "Composite", price', stock'⟩]

/-! ## Basic lemmas about the heap embedding -/

theorem length_siftdownLoop (newitem : Order) :
    ∀ (pos : Nat) (heap : List Order),
      (siftdownLoop newitem heap pos).length = heap.length := by
  intro pos
  induction pos using Nat.strong_induction_on with
  | _ pos ih =>
    intro heap
    match pos with
    | 0 => simp [siftdownLoop]
    | pos + 1 =>
      rw [siftdownLoop]
      split
      · rw [ih (pos / 2) (by omega)]
        simp
      · simp

theorem length_heappush (heap : List Order) (item : Order) :
    (heappush heap item).length = heap.length + 1 := by
  unfold heappush
  rw [length_siftdownLoop]
  simp

theorem heappush_ne_self (heap : List Order) (item : Order) :
    heappush heap item ≠ heap := by
  intro h
  have := congrArg List.length h
  rw [length_heappush] at this
  omega

theorem append_singleton_ne_self (l : List Order) (a : Order) :
    l ++ [a] ≠ l := by
  intro h
  have := congrArg List.length h
  simp at this

theorem tupleLt_irrefl (a : Order) : ¬ tupleLt a a := by
  unfold tupleLt; omega

theorem tupleLt_asymm {a b : Order} (h : tupleLt a b) : ¬ tupleLt b a := by
  unfold tupleLt at *; omega

theorem tupleLt_trans {a b c : Order} (h1 : tupleLt a b) (h2 : tupleLt b c) :
    tupleLt a c := by
  unfold tupleLt at *; omega

theorem not_tupleLt_trans {a b c : Order} (h1 : ¬ tupleLt b a) (h2 : ¬ tupleLt c b) :
    ¬ tupleLt c a := by
  unfold tupleLt at *; omega

theorem tupleLe_of_not_tupleLt {a b : Order} (h : ¬ tupleLt a b) : tupleLe b a := by
  unfold tupleLt tupleLe tupleLt at *
  simp only [Prod.ext_iff]
  omega

/-- C1: for a known product with stock `S` and a submitted order of
quantity `Q`, `place_order` appends the tuple `(order_id, product_id,
quantity)` to the FIFO Order Queue if and only if `S >= Q` (leaving the
Backorder Queue untouched), and otherwise pushes the same tuple onto the
Backorder Queue (leaving the Order Queue untouched) — exactly one queue
receives it. -/
theorem place_order_routes_by_stock (s : SystemState) (now product_id quantity : Int)
    (product : Product)
    (hfind : getProductById s.inventory product_id = some product) :
    (((place_order s now (some product_id) (some quantity)).1.order_queue =
        s.order_queue ++ [(now, product_id, quantity)] ∧
      (place_order s now (some product_id) (some quantity)).1.backorder_queue =
        s.backorder_queue) ↔ product.stock ≥ quantity) ∧
    (((place_order s now (some product_id) (some quantity)).1.backorder_queue =
        heappush s.backorder_queue (now, product_id, quantity) ∧
      (place_order s now (some product_id) (some quantity)).1.order_queue =
        s.order_queue) ↔ ¬ product.stock ≥ quantity) := by
  simp only [place_order, hfind]
  by_cases hst : product.stock ≥ quantity
  · rw [if_pos hst]
    constructor
    · simp [hst]
    · constructor
      · rintro ⟨h1, -⟩
        exact absurd h1.symm (heappush_ne_self _ _)
      · intro h; exact absurd hst h
  · rw [if_neg hst]
    constructor
    · constructor
      · rintro ⟨h1, -⟩
        exact absurd h1.symm (append_singleton_ne_self _ _)
      · intro h; exact absurd h hst
    · simp [hst]

/-- C7: `place_order` never changes the catalog, whichever branch runs:
the inventory of the resulting state is exactly the inventory of the
input state, so no stock is decremented and no row is added, removed or
modified. -/
theorem place_order_preserves_catalog (s : SystemState) (now : Int)
    (productIdIn quantityIn : Option Int) :
    (place_order s now productIdIn quantityIn).1.inventory = s.inventory := by
  unfold place_order
  cases productIdIn with
  | none => rfl
  | some pid =>
    cases hfind : getProductById s.inventory pid with
    | none => simp only [hfind]
    | some p =>
      simp only [hfind]
      cases quantityIn with
      | none => rfl
      | some q =>
        dsimp only
        split <;> rfl

/-- C9: failed operations are atomic.  When `add_new_product` fails on a
non-numeric price or stock (a `ValueError` of `float`/`int`), and when
`place_order` fails on a non-numeric product id or quantity or on a
product-not-found lookup, the whole state — catalog, ledger, and both
queues — is returned exactly as it was. -/
theorem core_ops_atomic_on_failure (s : SystemState) (now : Int)
    (name category : String) (priceIn : Option ℚ) (stockIn quantityIn : Option Int)
    (product_id : Int) :
    (add_new_product s now name category none stockIn).1 = s ∧
    (add_new_product s now name category priceIn none).1 = s ∧
    (place_order s now none quantityIn).1 = s ∧
    (getProductById s.inventory product_id = none →
      (place_order s now (some product_id) quantityIn).1 = s) ∧
    (∀ pidIn : Option Int, (place_order s now pidIn none).1 = s) := by
  refine ⟨rfl, ?_, rfl, ?_, ?_⟩
  · cases priceIn <;> rfl
  · intro hnone
    simp [place_order, hnone]
  · intro pidIn
    cases pidIn with
    | none => rfl
    | some pid =>
      cases hfind : getProductById s.inventory pid with
      | none => simp [place_order, hfind]
      | some p => simp [place_order, hfind]

theorem core_ops_atomic_witness :
    getProductById (initialState 0).inventory 999 = none ∧
    (place_order (initialState 0) 7 (some 999) (some 1)).1 = initialState 0 :=
  ⟨by decide,
   (core_ops_atomic_on_failure (initialState 0) 7 "x" "y" none none (some 1) 999).2.2.2.1
     (by decide)⟩

/-- C6 (bug evidence): `place_order` derives `order_id` from
`int(datetime.now().timestamp())`, which has one-second resolution, so
two submissions within the same wall-clock second (both seeing `now =
1000`) are assigned *equal* order ids — the second order's id is not
strictly greater than the first's, contradicting the claimed strict
monotonicity. -/
theorem order_ids_collide_within_same_second :
    (place_order (place_order (initialState 0) 1000 (some 101) (some 1)).1
        1000 (some 102) (some 1)).1.order_queue =
      [(1000, 101, 1), (1000, 102, 1)] ∧
    ¬ ((1000 : Int) < 1000) := by
  constructor
  · decide
  · omega

/-- C3: for a composite product id, `calculate_composite_cost` returns
the sum of the recursively computed costs of the parts in its component
list; in particular, with the seeded catalog prices 75.50 / 120.00 /
90.00 for ids 101/102/103 and composite id 901 mapping to
`[101, 102, 103]`, the cost of 901 is 285.50 (at every sufficient
recursion depth). -/
theorem composite_cost_sums_parts :
    (∀ (comps : List (Int × List Int)) (inventory : List Product)
        (product_id : Int) (parts : List Int) (fuel : Nat),
      comps.lookup product_id = some parts →
      calculate_composite_cost comps inventory (fuel + 1) product_id =
        (parts.map (calculate_composite_cost comps inventory fuel)).sum) ∧
    (∀ fuel : Nat,
      calculate_composite_cost COMPOSITE_PRODUCTS INVENTORY (fuel + 2) 901 = 285.50) := by
  constructor
  · intro comps inventory product_id parts fuel hlook
    simp [calculate_composite_cost, hlook]
  · intro fuel
    have h101 : COMPOSITE_PRODUCTS.lookup (101 : Int) = none := by decide
    have h102 : COMPOSITE_PRODUCTS.lookup (102 : Int) = none := by decide
    have h103 : COMPOSITE_PRODUCTS.lookup (103 : Int) = none := by decide
    have h901 : COMPOSITE_PRODUCTS.lookup (901 : Int) = some [101, 102, 103] := by decide
    simp [calculate_composite_cost, h101, h102, h103, h901, getProductById, INVENTORY,
      List.find?]
    norm_num

theorem composite_cost_sums_parts_witness :
    COMPOSITE_PRODUCTS.lookup (901 : Int) = some [101, 102, 103] ∧
    calculate_composite_cost COMPOSITE_PRODUCTS INVENTORY 2 901 =
      ([101, 102, 103].map (calculate_composite_cost COMPOSITE_PRODUCTS INVENTORY 1)).sum :=
  ⟨by decide,
   composite_cost_sums_parts.1 COMPOSITE_PRODUCTS INVENTORY 901 [101, 102, 103] 1 (by decide)⟩

/-- C8: for a product id absent from both the composite table and the
catalog, `calculate_composite_cost` returns 0 (and, being a total
function here, cannot raise); the seeded instance `cost 999 = 0` is the
witness below. -/
theorem cost_of_unknown_id_is_zero
    (comps : List (Int × List Int)) (inventory : List Product)
    (product_id : Int) (fuel : Nat)
    (hcomp : comps.lookup product_id = none)
    (hcat : getProductById inventory product_id = none) :
    calculate_composite_cost comps inventory fuel product_id = 0 := by
  cases fuel with
  | zero => rfl
  | succ n => simp [calculate_composite_cost, hcomp, hcat]

theorem cost_of_unknown_id_is_zero_witness :
    COMPOSITE_PRODUCTS.lookup (999 : Int) = none ∧
    getProductById INVENTORY 999 = none ∧
    calculate_composite_cost COMPOSITE_PRODUCTS INVENTORY 3 999 = 0 :=
  ⟨by decide, by decide,
   cost_of_unknown_id_is_zero COMPOSITE_PRODUCTS INVENTORY 999 3 (by decide) (by decide)⟩

/-- C10: the cost of an id present in the composite table is determined
solely by its component list: the seeded `901` catalog row contributes
nothing (its price and stock can be replaced by arbitrary values without
changing `cost 901 = 285.50`), `inventoryWithBundleRow 0 10` is exactly
the seeded catalog, and in general two catalogs that agree outside the
composite id give the same cost for it. -/
theorem composite_cost_ignores_own_catalog_row :
    (∀ (price' : ℚ) (stock' : Int) (fuel : Nat),
      calculate_composite_cost COMPOSITE_PRODUCTS
        (inventoryWithBundleRow price' stock') (fuel + 2) 901 = 285.50) ∧
    inventoryWithBundleRow 0 10 = INVENTORY ∧
    (∀ (comps : List (Int × List Int)) (inv1 inv2 : List Product)
        (pid : Int) (parts : List Int) (fuel : Nat),
      comps.lookup pid = some parts →
      (∀ part ∈ parts, part ≠ pid ∧ comps.lookup part = none) →
      (∀ q : Int, q ≠ pid → getProductById inv1 q = getProductById inv2 q) →
      calculate_composite_cost comps inv1 (fuel + 2) pid =
        calculate_composite_cost comps inv2 (fuel + 2) pid) := by
  refine ⟨?_, by rfl, ?_⟩
  · intro price' stock' fuel
    have h101 : COMPOSITE_PRODUCTS.lookup (101 : Int) = none := by decide
    have h102 : COMPOSITE_PRODUCTS.lookup (102 : Int) = none := by decide
    have h103 : COMPOSITE_PRODUCTS.lookup (103 : Int) = none := by decide
    have h901 : COMPOSITE_PRODUCTS.lookup (901 : Int) = some [101, 102, 103] := by decide
    simp [calculate_composite_cost, h101, h102, h103, h901, getProductById,
      inventoryWithBundleRow, List.find?]
    norm_num
  · intro comps inv1 inv2 pid parts fuel hlook hparts hsame
    simp only [calculate_composite_cost, hlook]
    congr 1
    apply List.map_congr_left
    intro part hpart
    obtain ⟨hne, hnone⟩ := hparts part hpart
    simp only [calculate_composite_cost, hnone, hsame part hne]

/-- C5: the ledger is append-only.  `add_transaction` grows the
transaction list by exactly one and keeps every existing entry in place;
a successful `add_new_product` appends exactly one entry with
description "initial stock" and quantity change equal to the initial
stock, without touching prior entries; failed adds and `place_order`
leave the ledger untouched. -/
theorem ledger_append_only (s : SystemState)
    (transactions : List TransactionRecord)
    (now product_id quantity_change m : Int)
    (description name category : String) (price : ℚ) (stock : Int)
    (productIdIn quantityIn : Option Int) :
    ((add_transaction transactions now product_id description quantity_change).length =
        transactions.length + 1 ∧
      (add_transaction transactions now product_id description
        quantity_change).take transactions.length = transactions) ∧
    (maxId s.inventory = some m →
      (add_new_product s now name category (some price) (some stock)).1.ledger =
        s.ledger ++ [⟨now, m + 1, "initial stock", stock⟩] ∧
      (add_new_product s now name category (some price) (some stock)).1.ledger.take
        s.ledger.length = s.ledger) ∧
    ((add_new_product s now name category none (some stock)).1.ledger = s.ledger) ∧
    ((add_new_product s now name category (some price) none).1.ledger = s.ledger) ∧
    ((place_order s now productIdIn quantityIn).1.ledger = s.ledger) := by
  refine ⟨⟨by simp [add_transaction], List.take_left _ _⟩, ?_, rfl, rfl, ?_⟩
  · intro hmax
    have hled : (add_new_product s now name category (some price) (some stock)).1.ledger =
        s.ledger ++ [⟨now, m + 1, "initial stock", stock⟩] := by
      simp [add_new_product, hmax, add_transaction]
    rw [hled]
    exact ⟨rfl, List.take_left _ _⟩
  · unfold place_order
    cases productIdIn with
    | none => rfl
    | some pid =>
      cases hfind : getProductById s.inventory pid with
      | none => simp only [hfind]
      | some p =>
        simp only [hfind]
        cases quantityIn with
        | none => rfl
        | some q =>
          dsimp only
          split <;> rfl

theorem ledger_append_only_witness :
    maxId (initialState 0).inventory = some 901 ∧
    (add_new_product (initialState 0) 5 "Hub" "Electronics" (some 20) (some 4)).1.ledger =
      (initialState 0).ledger ++ [⟨5, 902, "initial stock", 4⟩] ∧
    (add_new_product (initialState 0) 5 "Hub" "Electronics" (some 20)
      (some 4)).1.ledger.take (initialState 0).ledger.length = (initialState 0).ledger :=
  ⟨by decide,
   (ledger_append_only (initialState 0) [] 5 0 0 901 "" "Hub" "Electronics" 20 4
      none none).2.1 (by decide)⟩

theorem le_foldl_max_init :
    ∀ (ps : List Product) (a : Int), a ≤ ps.foldl (fun m q => max m q.id) a := by
  intro ps
  induction ps with
  | nil => intro a; simp
  | cons p ps ih =>
    intro a
    exact le_trans (le_max_left a p.id) (ih (max a p.id))

theorem le_foldl_max_mem :
    ∀ (ps : List Product) (a : Int) (p : Product), p ∈ ps →
      p.id ≤ ps.foldl (fun m q => max m q.id) a := by
  intro ps
  induction ps with
  | nil => intro a p hp; cases hp
  | cons q ps ih =>
    intro a p hp
    rcases List.mem_cons.mp hp with h | h
    · subst h
      exact le_trans (le_max_right a p.id) (le_foldl_max_init ps _)
    · exact ih _ p h

theorem maxId_spec (inv : List Product) (m : Int) (hm : maxId inv = some m) :
    ∀ p ∈ inv, p.id ≤ m := by
  cases inv with
  | nil => cases hm
  | cons p ps =>
    simp only [maxId, Option.some.injEq] at hm
    subst hm
    intro q hq
    rcases List.mem_cons.mp hq with h | h
    · subst h
      exact le_foldl_max_init ps _
    · exact le_foldl_max_mem ps _ q h

theorem maxId_isSome (inv : List Product) (hne : inv ≠ []) :
    ∃ m, maxId inv = some m := by
  cases inv with
  | nil => exact absurd rfl hne
  | cons p ps => exact ⟨_, rfl⟩

theorem add_new_product_success (s : SystemState) (now : Int)
    (name category : String) (price : ℚ) (stock m : Int)
    (hm : maxId s.inventory = some m) :
    add_new_product s now name category (some price) (some stock) =
      ({ s with
          inventory := s.inventory ++ [⟨m + 1, name, category, price, stock⟩],
          ledger := add_transaction s.ledger now (m + 1) "initial stock" stock },
       some (m + 1)) := by
  simp [add_new_product, hm]

theorem runAdds_ids (now : Int) :
    ∀ (inputs : List (String × String × ℚ × Int)) (s : SystemState),
      s.inventory ≠ [] →
      (∀ id ∈ (runAdds now s inputs).2, ∀ p ∈ s.inventory, p.id < id) ∧
      ((runAdds now s inputs).2).Pairwise (· < ·) := by
  intro inputs
  induction inputs with
  | nil =>
    intro s hs
    simp [runAdds]
  | cons input rest ih =>
    intro s hs
    obtain ⟨name, category, price, stock⟩ := input
    obtain ⟨m, hm⟩ := maxId_isSome s.inventory hs
    rw [runAdds, add_new_product_success s now name category price stock m hm]
    dsimp only
    have hs' : (({ s with
        inventory := s.inventory ++ [⟨m + 1, name, category, price, stock⟩],
        ledger := add_transaction s.ledger now (m + 1) "initial stock" stock } :
          SystemState)).inventory ≠ [] := by simp
    obtain ⟨ihall, ihpair⟩ := ih _ hs'
    constructor
    · intro id hid p hp
      rcases List.mem_cons.mp hid with h | h
      · subst h
        exact lt_of_le_of_lt (maxId_spec s.inventory m hm p hp) (by omega)
      · exact ihall id h p (by simp [hp])
    · rw [List.pairwise_cons]
      refine ⟨?_, ihpair⟩
      intro id hid
      have := ihall id hid ⟨m + 1, name, category, price, stock⟩ (by simp)
      simpa using this

/-- C4: on a non-empty catalog, `add_new_product` assigns the id
`max(existing ids) + 1`, which is strictly greater than every existing
id, and over any sequence of `add` calls the assigned ids are pairwise
strictly increasing. -/
theorem assigned_ids_strictly_increase (s : SystemState) (now : Int)
    (hne : s.inventory ≠ []) :
    (∀ (name category : String) (price : ℚ) (stock : Int), ∃ m : Int,
      maxId s.inventory = some m ∧
      (∀ p ∈ s.inventory, p.id ≤ m) ∧
      (add_new_product s now name category (some price) (some stock)).2 = some (m + 1)) ∧
    (∀ inputs : List (String × String × ℚ × Int),
      ((runAdds now s inputs).2).Pairwise (· < ·)) := by
  constructor
  · intro name category price stock
    obtain ⟨m, hm⟩ := maxId_isSome s.inventory hne
    refine ⟨m, hm, maxId_spec s.inventory m hm, ?_⟩
    rw [add_new_product_success s now name category price stock m hm]
  · intro inputs
    exact (runAdds_ids now inputs s hne).2

theorem assigned_ids_strictly_increase_witness :
    (initialState 0).inventory ≠ [] ∧
    ((runAdds 0 (initialState 0)
        [("USB Hub", "Electronics", 20, 4), ("Desk Mat", "Furniture", 15, 9)]).2).Pairwise
      (· < ·) :=
  ⟨by decide,
   (assigned_ids_strictly_increase (initialState 0) 0 (by decide)).2
     [("USB Hub", "Electronics", 20, 4), ("Desk Mat", "Furniture", 15, 9)]⟩

/-! ## The binary-heap invariant and correctness of the sift-down loop -/

/-- The `heapq` invariant on the array encoding: no element is smaller
than its parent at index `(i - 1) / 2`. -/
def heapInv (heap : List Order) : Prop :=
  ∀ i : Nat, 0 < i → i < heap.length →
    ¬ tupleLt (heapGet heap i) (heapGet heap ((i - 1) / 2))

theorem heapGet_set_self (heap : List Order) (i : Nat) (hi : i < heap.length)
    (a : Order) : heapGet (heap.set i a) i = a := by
  simp [heapGet, List.getElem?_set_self hi]

theorem heapGet_set_ne (heap : List Order) (i j : Nat) (a : Order) (hne : j ≠ i) :
    heapGet (heap.set j a) i = heapGet heap i := by
  simp [heapGet, List.getElem?_set_ne hne]

theorem heapGet_append (heap t : List Order) (i : Nat) (hi : i < heap.length) :
    heapGet (heap ++ t) i = heapGet heap i := by
  simp [heapGet, List.getElem?_append_left hi]

theorem getElem?_eq_some_heapGet (heap : List Order) (i : Nat) (hi : i < heap.length) :
    heap[i]? = some (heapGet heap i) := by
  simp [heapGet, List.getElem?_eq_getElem hi]

theorem mem_swap_set (heap : List Order) (pos ppos : Nat) (hlt : ppos < pos)
    (hpos : pos < heap.length) (newitem x : Order) :
    (x ∈ (heap.set pos (heapGet heap ppos)).set ppos newitem ↔
      x ∈ heap.set pos newitem) := by
  have hppos : ppos < heap.length := Nat.lt_trans hlt hpos
  have hne : ppos ≠ pos := Nat.ne_of_lt hlt
  have hL1 : ((heap.set pos (heapGet heap ppos)).set ppos newitem)[ppos]? =
      some newitem :=
    List.getElem?_set_self (by simpa using hppos)
  have hL2 : ((heap.set pos (heapGet heap ppos)).set ppos newitem)[pos]? =
      some (heapGet heap ppos) := by
    rw [List.getElem?_set_ne hne, List.getElem?_set_self hpos]
  have hL3 : ∀ i, i ≠ ppos → i ≠ pos →
      ((heap.set pos (heapGet heap ppos)).set ppos newitem)[i]? = heap[i]? := by
    intro i h1 h2
    rw [List.getElem?_set_ne (Ne.symm h1), List.getElem?_set_ne (Ne.symm h2)]
  have hR1 : (heap.set pos newitem)[pos]? = some newitem :=
    List.getElem?_set_self hpos
  have hR2 : (heap.set pos newitem)[ppos]? = some (heapGet heap ppos) := by
    rw [List.getElem?_set_ne (Ne.symm hne)]
    exact getElem?_eq_some_heapGet heap ppos hppos
  have hR3 : ∀ i, i ≠ ppos → i ≠ pos → (heap.set pos newitem)[i]? = heap[i]? := by
    intro i h1 h2
    rw [List.getElem?_set_ne (Ne.symm h2)]
  constructor
  · intro hx
    obtain ⟨i, hi⟩ := List.mem_iff_getElem?.mp hx
    rcases eq_or_ne i ppos with rfl | h1
    · rw [hL1] at hi
      exact List.mem_iff_getElem?.mpr ⟨pos, by rw [hR1]; exact hi⟩
    · rcases eq_or_ne i pos with rfl | h2
      · rw [hL2] at hi
        exact List.mem_iff_getElem?.mpr ⟨ppos, by rw [hR2]; exact hi⟩
      · rw [hL3 i h1 h2] at hi
        exact List.mem_iff_getElem?.mpr ⟨i, by rw [hR3 i h1 h2]; exact hi⟩
  · intro hx
    obtain ⟨i, hi⟩ := List.mem_iff_getElem?.mp hx
    rcases eq_or_ne i ppos with rfl | h1
    · rw [hR2] at hi
      exact List.mem_iff_getElem?.mpr ⟨pos, by rw [hL2]; exact hi⟩
    · rcases eq_or_ne i pos with rfl | h2
      · rw [hR1] at hi
        exact List.mem_iff_getElem?.mpr ⟨ppos, by rw [hL1]; exact hi⟩
      · rw [hR3 i h1 h2] at hi
        exact List.mem_iff_getElem?.mpr ⟨i, by rw [hL3 i h1 h2]; exact hi⟩

theorem mem_siftdownLoop (newitem : Order) :
    ∀ (pos : Nat) (heap : List Order), pos < heap.length → ∀ x : Order,
      (x ∈ siftdownLoop newitem heap pos ↔ x ∈ heap.set pos newitem) := by
  intro pos
  induction pos using Nat.strong_induction_on with
  | _ pos ih =>
    intro heap hpos x
    match pos with
    | 0 => rw [siftdownLoop]
    | pos + 1 =>
      rw [siftdownLoop]
      split
      · rw [ih (pos / 2) (by omega) _ (by simpa using by omega : pos / 2 < (heap.set (pos + 1) (heapGet heap (pos / 2))).length)]
        exact mem_swap_set heap (pos + 1) (pos / 2) (by omega) hpos newitem x
      · exact Iff.rfl

theorem heapInv_siftdownLoop (newitem : Order) :
    ∀ (pos : Nat) (heap : List Order), pos < heap.length →
      (∀ i : Nat, 0 < i → i < heap.length → i ≠ pos → (i - 1) / 2 ≠ pos →
        ¬ tupleLt (heapGet heap i) (heapGet heap ((i - 1) / 2))) →
      (∀ c : Nat, 0 < c → c < heap.length → (c - 1) / 2 = pos →
        ¬ tupleLt (heapGet heap c) newitem) →
      (0 < pos → ∀ c : Nat, 0 < c → c < heap.length → (c - 1) / 2 = pos →
        ¬ tupleLt (heapGet heap c) (heapGet heap ((pos - 1) / 2))) →
      heapInv (siftdownLoop newitem heap pos) := by
  intro pos
  induction pos using Nat.strong_induction_on with
  | _ pos ih =>
    intro heap hpos H1 H2 H3
    cases pos with
    | zero =>
      rw [siftdownLoop]
      intro i hi0 hilen
      rw [List.length_set] at hilen
      rw [heapGet_set_ne heap i 0 newitem (by omega)]
      by_cases hp : (i - 1) / 2 = 0
      · rw [hp, heapGet_set_self heap 0 (by omega) newitem]
        exact H2 i hi0 hilen hp
      · rw [heapGet_set_ne heap _ 0 newitem (by omega)]
        exact H1 i hi0 hilen (by omega) hp
    | succ q =>
      rw [siftdownLoop]
      split
      · rename_i hlt
        apply ih (q / 2) (by omega) _ (by simp; omega)
        · -- edges not touching the new hole q / 2
          intro i hi0 hilen hine hipne
          rw [List.length_set] at hilen
          have hiq : i ≠ q + 1 := by
            intro h
            subst h
            exact hipne (by omega)
          rw [heapGet_set_ne heap i (q + 1) _ (by omega)]
          by_cases hpi : (i - 1) / 2 = q + 1
          · rw [hpi, heapGet_set_self heap (q + 1) hpos _]
            exact H3 (by omega) i hi0 hilen hpi
          · rw [heapGet_set_ne heap _ (q + 1) _ (by omega)]
            exact H1 i hi0 hilen hiq hpi
        · -- children of the new hole are not below the carried item
          intro c hc0 hclen hcp
          rw [List.length_set] at hclen
          by_cases hcq : c = q + 1
          · subst hcq
            rw [heapGet_set_self heap (q + 1) hpos _]
            exact tupleLt_asymm hlt
          · rw [heapGet_set_ne heap c (q + 1) _ (by omega)]
            intro hcontra
            have h1 : ¬ tupleLt (heapGet heap c) (heapGet heap (q / 2)) := by
              have h := H1 c hc0 hclen hcq (by omega)
              rw [hcp] at h
              exact h
            exact h1 (tupleLt_trans hcontra hlt)
        · -- children of the new hole are not below its parent either
          intro hpp0 c hc0 hclen hcp
          rw [List.length_set] at hclen
          by_cases hcq : c = q + 1
          · subst hcq
            rw [heapGet_set_self heap (q + 1) hpos _,
              heapGet_set_ne heap ((q / 2 - 1) / 2) (q + 1) _ (by omega)]
            exact H1 (q / 2) hpp0 (by omega) (by omega) (by omega)
          · rw [heapGet_set_ne heap c (q + 1) _ (by omega),
              heapGet_set_ne heap ((q / 2 - 1) / 2) (q + 1) _ (by omega)]
            have e1 : ¬ tupleLt (heapGet heap c) (heapGet heap (q / 2)) := by
              have h := H1 c hc0 hclen hcq (by omega)
              rw [hcp] at h
              exact h
            have e2 : ¬ tupleLt (heapGet heap (q / 2))
                (heapGet heap ((q / 2 - 1) / 2)) :=
              H1 (q / 2) hpp0 (by omega) (by omega) (by omega)
            exact not_tupleLt_trans e2 e1
      · rename_i hnlt
        intro i hi0 hilen
        rw [List.length_set] at hilen
        by_cases hiq : i = q + 1
        · subst hiq
          rw [heapGet_set_self heap (q + 1) hpos newitem]
          rw [heapGet_set_ne heap _ (q + 1) newitem (by omega)]
          exact hnlt
        · rw [heapGet_set_ne heap i (q + 1) newitem (by omega)]
          by_cases hpi : (i - 1) / 2 = q + 1
          · rw [hpi, heapGet_set_self heap (q + 1) hpos newitem]
            exact H2 i hi0 hilen hpi
          · rw [heapGet_set_ne heap _ (q + 1) newitem (by omega)]
            exact H1 i hi0 hilen hiq hpi

theorem heapInv_nil : heapInv [] := by
  intro i hi0 hilen
  simp at hilen

theorem heapInv_heappush (heap : List Order) (item : Order) (hinv : heapInv heap) :
    heapInv (heappush heap item) := by
  unfold heappush
  apply heapInv_siftdownLoop item heap.length (heap ++ [item]) (by simp)
  · intro i hi0 hilen hine hipne
    simp only [List.length_append, List.length_cons, List.length_nil] at hilen
    have hi : i < heap.length := by omega
    rw [heapGet_append heap [item] i hi,
      heapGet_append heap [item] ((i - 1) / 2) (by omega)]
    exact hinv i hi0 hi
  · intro c hc0 hclen hcp
    simp only [List.length_append, List.length_cons, List.length_nil] at hclen
    omega
  · intro hp0 c hc0 hclen hcp
    simp only [List.length_append, List.length_cons, List.length_nil] at hclen
    omega

theorem heapInv_root_min (heap : List Order) (hinv : heapInv heap) :
    ∀ i : Nat, i < heap.length →
      ¬ tupleLt (heapGet heap i) (heapGet heap 0) := by
  intro i
  induction i using Nat.strong_induction_on with
  | _ i ih =>
    intro hilen
    cases Nat.eq_zero_or_pos i with
    | inl h0 =>
      subst h0
      exact tupleLt_irrefl _
    | inr hpos =>
      have hparent := ih ((i - 1) / 2) (by omega) (by omega)
      exact not_tupleLt_trans hparent (hinv i hpos hilen)

theorem set_append_length (heap : List Order) (a b : Order) :
    (heap ++ [a]).set heap.length b = heap ++ [b] := by
  induction heap with
  | nil => rfl
  | cons x xs ih => simp [ih]

theorem mem_heappush (heap : List Order) (item x : Order) :
    x ∈ heappush heap item ↔ x = item ∨ x ∈ heap := by
  unfold heappush
  rw [mem_siftdownLoop item heap.length (heap ++ [item]) (by simp) x,
    set_append_length]
  simp [or_comm]

theorem heapInv_pushAll (orders : List Order) : heapInv (pushAll orders) := by
  unfold pushAll
  have main : ∀ (l : List Order) (acc : List Order), heapInv acc →
      heapInv (l.foldl heappush acc) := by
    intro l
    induction l with
    | nil => intro acc h; exact h
    | cons o l ih =>
      intro acc h
      exact ih _ (heapInv_heappush acc o h)
  exact main orders [] heapInv_nil

theorem mem_pushAll (orders : List Order) (x : Order) :
    x ∈ pushAll orders ↔ x ∈ orders := by
  unfold pushAll
  have main : ∀ (l : List Order) (acc : List Order),
      (x ∈ l.foldl heappush acc ↔ x ∈ acc ∨ x ∈ l) := by
    intro l
    induction l with
    | nil => intro acc; simp
    | cons o l ih =>
      intro acc
      rw [List.foldl_cons, ih (heappush acc o), mem_heappush]
      simp only [List.mem_cons]
      tauto
  rw [main orders []]
  simp

theorem heappop_of_ne_nil (heap : List Order) (hne : heap ≠ []) :
    ∃ rest, heappop heap = some (heapGet heap 0, rest) := by
  match heap with
  | [] => exact absurd rfl hne
  | [a] => exact ⟨[], rfl⟩
  | a :: b :: bs => exact ⟨_, rfl⟩

/-- C2: the backorder queue is a `heapq` min-heap ordered by Python's
tuple comparison on `(order_id, product_id, quantity)` — lexicographic,
ties on order id broken by product id then quantity (`tupleLt`) — and
popping it returns a smallest element among everything pushed; in
particular, after two insufficient-stock submissions with order ids 5
and 3, the pop returns the order with id 3 first. -/
theorem backorder_queue_pops_lex_min :
    (∀ orders : List Order, orders ≠ [] →
      ∃ m rest, heappop (pushAll orders) = some (m, rest) ∧ m ∈ orders ∧
        ∀ o ∈ orders, tupleLe m o) ∧
    ((place_order (place_order (initialState 0) 5 (some 101) (some 1000)).1
        3 (some 102) (some 1000)).1.backorder_queue =
      pushAll [(5, 101, 1000), (3, 102, 1000)] ∧
     heappop ((place_order (place_order (initialState 0) 5 (some 101) (some 1000)).1
        3 (some 102) (some 1000)).1.backorder_queue) =
      some ((3, 102, 1000), [(5, 101, 1000)])) := by
  constructor
  · intro orders hne
    have hinv := heapInv_pushAll orders
    have hne' : pushAll orders ≠ [] := by
      obtain ⟨x, hx⟩ := List.exists_mem_of_ne_nil orders hne
      intro h0
      have hmem : x ∈ pushAll orders := (mem_pushAll orders x).mpr hx
      rw [h0] at hmem
      cases hmem
    obtain ⟨rest, hpop⟩ := heappop_of_ne_nil _ hne'
    have hlen : 0 < (pushAll orders).length := List.length_pos.mpr hne'
    refine ⟨heapGet (pushAll orders) 0, rest, hpop, ?_, ?_⟩
    · have hmem : heapGet (pushAll orders) 0 ∈ pushAll orders :=
        List.mem_iff_getElem?.mpr ⟨0, getElem?_eq_some_heapGet _ 0 hlen⟩
      exact (mem_pushAll orders _).mp hmem
    · intro o ho
      have hoH : o ∈ pushAll orders := (mem_pushAll orders o).mpr ho
      obtain ⟨i, hilen, hieq⟩ := List.mem_iff_getElem.mp hoH
      have hmin := heapInv_root_min _ hinv i hilen
      have hgi : heapGet (pushAll orders) i = o := by
        have h2 := getElem?_eq_some_heapGet (pushAll orders) i hilen
        rw [List.getElem?_eq_getElem hilen] at h2
        injection h2 with h3
        rw [← h3, hieq]
      rw [hgi] at hmin
      exact tupleLe_of_not_tupleLt hmin
  · constructor
    · simp [place_order, getProductById, initialState, INVENTORY, pushAll,
        heappush, siftdownLoop, heapGet, tupleLt]
    · simp [place_order, getProductById, initialState, INVENTORY, pushAll,
        heappush, heappop, siftupLoop, siftdownLoop, heapGet, tupleLt]

theorem backorder_queue_pops_lex_min_witness :
    (([(5, 101, 1000), (3, 102, 1000)] : List Order) ≠ []) ∧
    (∃ m rest, heappop (pushAll [(5, 101, 1000), (3, 102, 1000)]) = some (m, rest) ∧
      m ∈ ([(5, 101, 1000), (3, 102, 1000)] : List Order) ∧
      ∀ o ∈ ([(5, 101, 1000), (3, 102, 1000)] : List Order), tupleLe m o) :=
  ⟨by decide,
   backorder_queue_pops_lex_min.1 [(5, 101, 1000), (3, 102, 1000)] (by decide)⟩

theorem place_order_routes_by_stock_witness :
    getProductById (initialState 0).inventory 101 =
      some ⟨101, "Gaming Mouse", "Electronics", 75.50, 80⟩ ∧
    ((place_order (initialState 0) 7 (some 101) (some 5)).1.order_queue =
      (initialState 0).order_queue ++ [(7, 101, 5)] ∧
     (place_order (initialState 0) 7 (some 101) (some 5)).1.backorder_queue =
      (initialState 0).backorder_queue) :=
  ⟨rfl,
   ((place_order_routes_by_stock (initialState 0) 7 101 5
      ⟨101, "Gaming Mouse", "Electronics", 75.50, 80⟩ rfl).1).mpr (by norm_num)⟩

theorem composite_cost_ignores_own_catalog_row_witness :
    (COMPOSITE_PRODUCTS.lookup (901 : Int) = some [101, 102, 103]) ∧
    calculate_composite_cost COMPOSITE_PRODUCTS (inventoryWithBundleRow 7 3) 2 901 =
      calculate_composite_cost COMPOSITE_PRODUCTS INVENTORY 2 901 := by
  refine ⟨by decide, ?_⟩
  apply composite_cost_ignores_own_catalog_row.2.2 COMPOSITE_PRODUCTS
    (inventoryWithBundleRow 7 3) INVENTORY 901 [101, 102, 103] 0 (by decide) (by decide)
  intro q hq
  have h901 : ((901 : Int) == q) = false := by
    simp only [beq_eq_false_iff_ne]
    exact Ne.symm hq
  simp [getProductById, inventoryWithBundleRow, INVENTORY, List.find?, h901]
